import Mathlib

/-!
Verification of the shopping-list aggregator and the cart mutation
operations of the sushi-website application (src/app.js).

The JavaScript functions getCartIngredientsSummary, addToCart,
removeFromCart and setCartQuantity are embedded as executable Lean
definitions.  JS objects used as string-keyed dictionaries are modelled
as insertion-ordered association lists (property assignment updates an
existing key in place and appends a fresh key at the end, and
Object.values/Object.keys enumerate in insertion order).  JS string
primitives are modelled over the underlying character lists.
-/

namespace SushiWeb

/-- Model of JS String.prototype.toLowerCase, character by character. -/
def jsToLower (s : String) : String := ⟨s.data.map Char.toLower⟩

/-- Model of JS String.prototype.trim: drop leading and trailing whitespace. -/
def jsTrim (s : String) : String :=
  ⟨((s.data.dropWhile Char.isWhitespace).reverse.dropWhile Char.isWhitespace).reverse⟩

/-- Code-point lexicographic strict comparison on character lists.  This is
the order underlying the default (comparator-free) JS Array.prototype.sort
on strings. -/
def strLtChars : List Char → List Char → Bool
  | [], [] => false
  | [], _ :: _ => true
  | _ :: _, [] => false
  | a :: as, b :: bs =>
    if a.toNat < b.toNat then true
    else if b.toNat < a.toNat then false
    else strLtChars as bs

/-- Non-strict code-point lexicographic order on strings. -/
def strLe (a b : String) : Bool := !(strLtChars b.data a.data)

/-- A catalog ingredient (an element of the ingredientsMaster lists).  A
missing store / category field of the JS object is modelled as the empty
string, which is equally falsy for the checks the code performs. -/
structure Ingredient where
  name : String
  category : String
  store : String
deriving DecidableEq

/-- A cart entry: a menu item spread together with a quantity.  A missing
ingredient list is modelled as [] (the code replaces both by [] via
`|| []`), and quantity 0 stands for a missing or zero quantity field
(both are falsy for the code's `item.quantity || 1`). -/
structure CartItem where
  name : String
  category : String
  ingredients_inside : List String
  ingredients_on_top : List String
  quantity : Nat
deriving DecidableEq

/-- A working/aggregated ingredient record: the catalog ingredient spread
together with a running totalQty. -/
structure AggRec where
  name : String
  category : String
  store : String
  totalQty : Nat
deriving DecidableEq

/-- The ingredientMap object: lower-cased name to working record,
insertion ordered. -/
abbrev IngMap := List (String × AggRec)

/-- Property read ingredientMap[key]. -/
def mapGet (m : IngMap) (k : String) : Option AggRec :=
  (m.find? (fun p => p.1 == k)).map Prod.snd

/-- Property write ingredientMap[key] = v: update in place when the key
exists, else append. -/
def mapSet : IngMap → String → AggRec → IngMap
  | [], k, v => [(k, v)]
  | p :: rest, k, v => if p.1 == k then (k, v) :: rest else p :: mapSet rest k v

/-- Step 1: Object.values(ingredientsMaster).flat().forEach(ing =>
ingredientMap[ing.name.toLowerCase()] = { ...ing, totalQty: 0 }), on the
already flattened list. -/
def buildMapL (l : List Ingredient) : IngMap :=
  l.foldl (fun m ing =>
    mapSet m (jsToLower ing.name) ⟨ing.name, ing.category, ing.store, 0⟩) []

/-- Step 1 on the grouped master object (Object.values(...).flat()). -/
def buildMap (master : List (List Ingredient)) : IngMap := buildMapL master.flatten

/-- item.category === 'Maki Rolls' || item.category === 'Speciality Rolls'. -/
def isRollCat (c : String) : Bool := c == "Maki Rolls" || c == "Speciality Rolls"

/-- cart.some(item => item.category === 'Maki Rolls' || ...). -/
def hasRolls (cart : List CartItem) : Bool := cart.any (fun item => isRollCat item.category)

/-- The smartIngredients array. -/
def smartNames : List String := ["Rice", "Soy Sauce", "Wasabi"]

/-- One iteration of the smart-ingredient loop: if the key is present,
force its totalQty to 1. -/
def smartSet (m : IngMap) (smartName : String) : IngMap :=
  match mapGet m (jsToLower smartName) with
  | some r => mapSet m (jsToLower smartName) { r with totalQty := 1 }
  | none => m

/-- The smart-ingredient forEach loop. -/
def applySmart (m : IngMap) : IngMap := smartNames.foldl smartSet m

/-- item.quantity || 1 (0 models a missing or zero quantity). -/
def effQty (q : Nat) : Nat := if q == 0 then 1 else q

/-- [...inside, ...onTop] after .map(i => i.trim()).filter(Boolean). -/
def itemIngs (item : CartItem) : List String :=
  ((item.ingredients_inside.map jsTrim).filter (fun s => !(s == ""))) ++
  ((item.ingredients_on_top.map jsTrim).filter (fun s => !(s == "")))

/-- The body of the per-ingredient accumulation: add qty to an existing
record, or synthesize the fallback record. -/
def addIng (qty : Nat) (m : IngMap) (ingName : String) : IngMap :=
  match mapGet m (jsToLower ingName) with
  | some r => mapSet m (jsToLower ingName) { r with totalQty := r.totalQty + qty }
  | none => mapSet m (jsToLower ingName) ⟨ingName, "Other", "", qty⟩

/-- Accumulation of one cart item over its combined ingredient list. -/
def accumItem (m : IngMap) (item : CartItem) : IngMap :=
  (itemIngs item).foldl (addIng (effQty item.quantity)) m

/-- The cart.forEach accumulation loop. -/
def accumulate (m : IngMap) (cart : List CartItem) : IngMap := cart.foldl accumItem m

/-- The ingredientMap after all three mutation phases. -/
def finalMap (cart : List CartItem) (master : List (List Ingredient)) : IngMap :=
  accumulate (if hasRolls cart then applySmart (buildMap master) else buildMap master) cart

/-- ing.category || 'Other'. -/
def displayCat (r : AggRec) : String := if r.category == "" then "Other" else r.category

/-- The grouped object: category key to list of records, insertion ordered. -/
abbrev Grouped := List (String × List AggRec)

/-- grouped[cat].push(ing), creating the key at the end on first use. -/
def groupAdd : Grouped → String → AggRec → Grouped
  | [], c, r => [(c, [r])]
  | p :: rest, c, r =>
    if p.1 == c then (p.1, p.2 ++ [r]) :: rest else p :: groupAdd rest c r

/-- The grouping loop over Object.values(ingredientMap), keeping only
records with totalQty > 0. -/
def buildGrouped (m : IngMap) : Grouped :=
  (m.map Prod.snd).foldl
    (fun g r => if 0 < r.totalQty then groupAdd g (displayCat r) r else g) []

/-- The returned { grouped, sortedCats } structure. -/
structure Summary where
  grouped : Grouped
  sortedCats : List String
deriving DecidableEq

/-- grouped[cat].sort((a, b) => a.name.localeCompare(b.name)), with the
host-defined localeCompare ordering abstracted as a Boolean comparison lc. -/
def sortRecs (lc : String → String → Bool) (l : List AggRec) : List AggRec :=
  List.insertionSort (fun a b => lc a.name b.name = true) l

/-- Object.keys(grouped).sort(): the comparator-free JS sort on strings,
i.e. code-point lexicographic order. -/
def sortKeys (l : List String) : List String :=
  List.insertionSort (fun a b => strLe a b = true) l

/-- Steps 5 to 7: filter, group, sort the category keys, and sort every
category list. -/
def summarize (lc : String → String → Bool) (m : IngMap) : Summary :=
  let g := buildGrouped m
  ⟨g.map (fun p => (p.1, sortRecs lc p.2)), sortKeys (g.map Prod.fst)⟩

/-- getCartIngredientsSummary with the locale comparison abstracted. -/
def getCartIngredientsSummaryWith (lc : String → String → Bool)
    (cart : List CartItem) (master : List (List Ingredient)) : Summary :=
  summarize lc (finalMap cart master)

/-- getCartIngredientsSummary (src/app.js lines 152 to 207).  JS
String.prototype.localeCompare is host-locale dependent; the executable
default instantiates it with code-point order. -/
def getCartIngredientsSummary (cart : List CartItem)
    (master : List (List Ingredient)) : Summary :=
  getCartIngredientsSummaryWith strLe cart master

/-- i.name === item.name && i.category === item.category. -/
def sameKey (a b : CartItem) : Bool := a.name == b.name && a.category == b.category

/-- addToCart (src/app.js lines 349 to 359). -/
def addToCart (cart : List CartItem) (item : CartItem) : List CartItem :=
  if cart.any (fun i => sameKey i item) then
    cart.map (fun i =>
      if sameKey i item then { i with quantity := min (i.quantity + 1) 5 } else i)
  else
    cart ++ [{ item with quantity := 1 }]

/-- removeFromCart (src/app.js lines 360 to 362). -/
def removeFromCart (cart : List CartItem) (item : CartItem) : List CartItem :=
  cart.filter (fun i => !(sameKey i item))

/-- setCartQuantity (src/app.js lines 363 to 366).  qty is an arbitrary
integer; the stored quantity is the clamp Math.min(Math.max(qty, 1), 5). -/
def setCartQuantity (cart : List CartItem) (item : CartItem) (qty : Int) : List CartItem :=
  if qty < 1 then removeFromCart cart item
  else cart.map (fun i =>
    if sameKey i item then { i with quantity := (min (max qty 1) 5).toNat } else i)

/-- All records of the returned grouped structure, in group order. -/
def outRecs (s : Summary) : List AggRec := (s.grouped.map Prod.snd).flatten

/-- The totalQty reported for an (exact) ingredient name, if any. -/
def totalOf (s : Summary) (n : String) : Option Nat :=
  ((outRecs s).find? (fun r => r.name == n)).map AggRec.totalQty

/-- How many processed ingredient occurrences of one cart item hit key k. -/
def refCount (item : CartItem) (k : String) : Nat :=
  ((itemIngs item).filter (fun s => jsToLower s == k)).length

/-- Total quantity the accumulation loop adds at key k. -/
def cartContrib (cart : List CartItem) (k : String) : Nat :=
  (cart.map (fun item => effQty item.quantity * refCount item k)).sum

/-- The first processed occurrence hitting key k, cart order. -/
def firstRef (cart : List CartItem) (k : String) : Option String :=
  ((cart.map itemIngs).flatten).find? (fun s => jsToLower s == k)

/-- The records that survive the totalQty > 0 filter. -/
def survivors (cart : List CartItem) (master : List (List Ingredient)) : List AggRec :=
  ((finalMap cart master).map Prod.snd).filter (fun r => 0 < r.totalQty)

/-- The cart state invariant: keys (name, category) are pairwise distinct
and every quantity lies in [1, 5]. -/
def cartWF (cart : List CartItem) : Prop :=
  List.Pairwise (fun a b => sameKey a b = false) cart ∧
    ∀ i ∈ cart, 1 ≤ i.quantity ∧ i.quantity ≤ 5

/-! ### Association-list map lemmas -/

theorem mapGet_mapSet_self (m : IngMap) (k : String) (v : AggRec) :
    mapGet (mapSet m k v) k = some v := by
  induction m with
  | nil => simp [mapGet, mapSet, List.find?]
  | cons p rest ih =>
    by_cases h : p.1 = k
    · simp [mapGet, mapSet, h, List.find?]
    · have hb : (p.1 == k) = false := beq_eq_false_iff_ne.mpr h
      simpa [mapGet, mapSet, hb, List.find?] using ih

theorem mapGet_mapSet_ne (m : IngMap) (k k' : String) (v : AggRec)
    (h : k' ≠ k) : mapGet (mapSet m k v) k' = mapGet m k' := by
  induction m with
  | nil =>
    have hb : (k == k') = false := beq_eq_false_iff_ne.mpr (Ne.symm h)
    simp [mapGet, mapSet, List.find?, hb]
  | cons p rest ih =>
    by_cases hp : p.1 = k
    · have hb : (k == k') = false := beq_eq_false_iff_ne.mpr (Ne.symm h)
      have hb2 : (p.1 == k') = false := by
        exact beq_eq_false_iff_ne.mpr (by simpa [hp] using (Ne.symm h))
      simp [mapGet, mapSet, hp, List.find?, hb, hb2]
    · have hb : (p.1 == k) = false := beq_eq_false_iff_ne.mpr hp
      by_cases hq : p.1 = k'
      · have hb2 : (p.1 == k') = true := beq_iff_eq.mpr hq
        simp [mapGet, mapSet, hb, List.find?, hb2]
      · have hb2 : (p.1 == k') = false := beq_eq_false_iff_ne.mpr hq
        simpa [mapGet, mapSet, hb, hb2, List.find?] using ih

theorem find?_append {α : Type} (p : α → Bool) (l₁ l₂ : List α) :
    (l₁ ++ l₂).find? p = ((l₁.find? p).orElse (fun _ => l₂.find? p)) := by
  induction l₁ with
  | nil => simp
  | cons a l ih =>
    by_cases h : p a = true
    · simp [List.find?, h]
    · simp only [Bool.not_eq_true] at h
      simp [List.find?, h, ih]

/-! ### The accumulation master lemma -/

/-- Quantity and key count over one processed ingredient list. -/
def listCount (l : List String) (k : String) : Nat :=
  (l.filter (fun s => jsToLower s == k)).length

theorem foldl_addIng_get (l : List String) (qty : Nat) (m : IngMap) (k : String) :
    mapGet (l.foldl (addIng qty) m) k =
      match mapGet m k with
      | some r => some { r with totalQty := r.totalQty + qty * listCount l k }
      | none =>
          (l.find? (fun s => jsToLower s == k)).map
            (fun s => ⟨s, "Other", "", qty * listCount l k⟩) := by
  induction l generalizing m with
  | nil =>
    cases h : mapGet m k <;> simp [h, listCount, List.find?]
  | cons s rest ih =>
    by_cases hs : jsToLower s = k
    · have hb : (jsToLower s == k) = true := beq_iff_eq.mpr hs
      have hcount : listCount (s :: rest) k = listCount rest k + 1 := by
        simp [listCount, hb, Nat.add_comm]
      cases h : mapGet m k with
      | some r =>
        have hstep : (addIng qty m s) = mapSet m k { r with totalQty := r.totalQty + qty } := by
          simp [addIng, hs, h]
        rw [List.foldl_cons, hstep, ih, mapGet_mapSet_self, hcount]
        simp only [Option.some.injEq, AggRec.mk.injEq, true_and, and_true]
        ring
      | none =>
        have hstep : (addIng qty m s) = mapSet m k ⟨s, "Other", "", qty⟩ := by
          simp [addIng, hs, h]
        rw [List.foldl_cons, hstep, ih, mapGet_mapSet_self, hcount]
        simp [List.find?, hb, Nat.mul_add, Nat.add_comm]
    · have hb : (jsToLower s == k) = false := beq_eq_false_iff_ne.mpr hs
      have hcount : listCount (s :: rest) k = listCount rest k := by
        simp [listCount, hb]
      have hstep : mapGet (addIng qty m s) k = mapGet m k := by
        unfold addIng
        cases h : mapGet m (jsToLower s) <;>
          simp [mapGet_mapSet_ne _ _ _ _ (fun hk => hs hk.symm)]
      rw [List.foldl_cons, ih, hstep, hcount]
      cases h : mapGet m k <;> simp [List.find?, hb]

theorem accumItem_get (m : IngMap) (item : CartItem) (k : String) :
    mapGet (accumItem m item) k =
      match mapGet m k with
      | some r => some { r with totalQty := r.totalQty + effQty item.quantity * refCount item k }
      | none =>
          ((itemIngs item).find? (fun s => jsToLower s == k)).map
            (fun s => ⟨s, "Other", "", effQty item.quantity * refCount item k⟩) := by
  have := foldl_addIng_get (itemIngs item) (effQty item.quantity) m k
  simpa [accumItem, refCount, listCount] using this

theorem accumulate_get (cart : List CartItem) (m : IngMap) (k : String) :
    mapGet (accumulate m cart) k =
      match mapGet m k with
      | some r => some { r with totalQty := r.totalQty + cartContrib cart k }
      | none =>
          (firstRef cart k).map (fun s => ⟨s, "Other", "", cartContrib cart k⟩) := by
  induction cart generalizing m with
  | nil =>
    cases h : mapGet m k <;> simp [h, accumulate, cartContrib, firstRef, List.find?]
  | cons item rest ih =>
    have hacc : accumulate m (item :: rest) = accumulate (accumItem m item) rest := rfl
    have hcontrib : cartContrib (item :: rest) k =
        effQty item.quantity * refCount item k + cartContrib rest k := by
      simp [cartContrib]
    have hfirst : firstRef (item :: rest) k =
        (((itemIngs item).find? (fun s => jsToLower s == k)).orElse
          (fun _ => firstRef rest k)) := by
      simp only [firstRef, List.map_cons, List.flatten_cons]
      exact find?_append _ _ _
    rw [hacc, ih, accumItem_get, hcontrib, hfirst]
    cases h : mapGet m k with
    | some r => simp [Nat.add_assoc]
    | none =>
      cases hf : (itemIngs item).find? (fun s => jsToLower s == k) with
      | some s => simp
      | none =>
        have hrc : refCount item k = 0 := by
          have := List.find?_eq_none.mp hf
          simp only [refCount, List.length_eq_zero, List.filter_eq_nil_iff]
          intro a ha
          exact this a ha
        simp [hrc]

/-! ### Smart-ingredient phase -/

theorem mapGet_smartSet (m : IngMap) (n k : String) :
    mapGet (smartSet m n) k =
      if jsToLower n = k then (mapGet m k).map (fun r => { r with totalQty := 1 })
      else mapGet m k := by
  unfold smartSet
  by_cases h : jsToLower n = k
  · rw [if_pos h, h]
    cases hm : mapGet m k with
    | none => simp [hm]
    | some r => simp [hm, mapGet_mapSet_self]
  · rw [if_neg h]
    cases hm : mapGet m (jsToLower n) with
    | none => rfl
    | some r => exact mapGet_mapSet_ne _ _ _ _ (fun hk => h hk.symm)

theorem mapGet_applySmart (m : IngMap) (k : String) :
    mapGet (applySmart m) k =
      if k = "rice" ∨ k = "soy sauce" ∨ k = "wasabi" then
        (mapGet m k).map (fun r => { r with totalQty := 1 })
      else mapGet m k := by
  have hshow : applySmart m = smartSet (smartSet (smartSet m "Rice") "Soy Sauce") "Wasabi" := rfl
  have h1 : jsToLower "Rice" = "rice" := by decide
  have h2 : jsToLower "Soy Sauce" = "soy sauce" := by decide
  have h3 : jsToLower "Wasabi" = "wasabi" := by decide
  rw [hshow, mapGet_smartSet, mapGet_smartSet, mapGet_smartSet, h1, h2, h3]
  by_cases e1 : k = "rice"
  · subst e1
    simp +decide
  · by_cases e2 : k = "soy sauce"
    · subst e2
      simp +decide
    · by_cases e3 : k = "wasabi"
      · subst e3
        simp +decide
      · have n1 : ¬("rice" = k) := fun h => e1 h.symm
        have n2 : ¬("soy sauce" = k) := fun h => e2 h.symm
        have n3 : ¬("wasabi" = k) := fun h => e3 h.symm
        simp [n1, n2, n3, e1, e2, e3]

/-! ### Catalog-map construction -/

theorem mapGet_mapSet_cases (m : IngMap) (k0 : String) (v : AggRec) (k : String) (r : AggRec)
    (h : mapGet (mapSet m k0 v) k = some r) :
    (k = k0 ∧ r = v) ∨ mapGet m k = some r := by
  by_cases hk : k = k0
  · subst hk
    rw [mapGet_mapSet_self] at h
    exact Or.inl ⟨rfl, (Option.some.inj h).symm⟩
  · right
    rwa [mapGet_mapSet_ne _ _ _ _ hk] at h

theorem foldl_buildStep_untouched (l : List Ingredient) (m : IngMap) (k : String)
    (h : ∀ ing ∈ l, jsToLower ing.name ≠ k) :
    mapGet (l.foldl (fun m ing =>
      mapSet m (jsToLower ing.name) ⟨ing.name, ing.category, ing.store, 0⟩) m) k = mapGet m k := by
  induction l generalizing m with
  | nil => rfl
  | cons ing rest ih =>
    rw [List.foldl_cons, ih _ (fun j hj => h j (List.mem_cons_of_mem _ hj))]
    exact mapGet_mapSet_ne _ _ _ _ (fun hk => h ing (List.mem_cons_self _ _) hk.symm)

theorem foldl_buildStep_get (l : List Ingredient) (m : IngMap)
    (hnd : (l.map (fun ing => jsToLower ing.name)).Nodup) (ing : Ingredient) (hmem : ing ∈ l) :
    mapGet (l.foldl (fun m ing =>
        mapSet m (jsToLower ing.name) ⟨ing.name, ing.category, ing.store, 0⟩) m)
      (jsToLower ing.name) = some ⟨ing.name, ing.category, ing.store, 0⟩ := by
  induction l generalizing m with
  | nil => cases hmem
  | cons j rest ih =>
    rw [List.map_cons, List.nodup_cons] at hnd
    rcases List.mem_cons.mp hmem with hhead | htail
    · subst hhead
      rw [List.foldl_cons,
        foldl_buildStep_untouched rest _ _
          (fun j2 hj2 heq => hnd.1 (by rw [← heq]; exact List.mem_map_of_mem _ hj2))]
      exact mapGet_mapSet_self _ _ _
    · exact ih _ hnd.2 htail

theorem buildMapL_get_of_nodup (l : List Ingredient)
    (hnd : (l.map (fun ing => jsToLower ing.name)).Nodup) (ing : Ingredient) (hmem : ing ∈ l) :
    mapGet (buildMapL l) (jsToLower ing.name) = some ⟨ing.name, ing.category, ing.store, 0⟩ :=
  foldl_buildStep_get l [] hnd ing hmem

theorem buildMapL_get_none (l : List Ingredient) (k : String)
    (h : ∀ ing ∈ l, jsToLower ing.name ≠ k) : mapGet (buildMapL l) k = none := by
  unfold buildMapL
  rw [foldl_buildStep_untouched l [] k h]
  rfl

theorem buildMapL_get_shape (l : List Ingredient) (k : String) (r : AggRec)
    (h : mapGet (buildMapL l) k = some r) : r.totalQty = 0 ∧ jsToLower r.name = k := by
  suffices haux : ∀ (l : List Ingredient) (m : IngMap),
      (∀ k r, mapGet m k = some r → r.totalQty = 0 ∧ jsToLower r.name = k) →
      ∀ k r, mapGet (l.foldl (fun m ing =>
        mapSet m (jsToLower ing.name) ⟨ing.name, ing.category, ing.store, 0⟩) m) k = some r →
        r.totalQty = 0 ∧ jsToLower r.name = k by
    exact haux l [] (fun k r hkr => by simp [mapGet, List.find?] at hkr) k r h
  intro l
  induction l with
  | nil => intro m hm k r hr; exact hm k r hr
  | cons j rest ih =>
    intro m hm k r hr
    refine ih _ (fun k2 r2 h2 => ?_) k r hr
    rcases mapGet_mapSet_cases _ _ _ _ _ h2 with ⟨hk2, hr2⟩ | hold
    · subst hk2; subst hr2; exact ⟨rfl, rfl⟩
    · exact hm k2 r2 hold

/-! ### Key uniqueness and membership -/

/-- Object.keys of the ingredient map. -/
def mapKeys (m : IngMap) : List String := m.map Prod.fst

theorem mapKeys_mapSet (m : IngMap) (k : String) (v : AggRec) :
    mapKeys (mapSet m k v) =
      if k ∈ mapKeys m then mapKeys m else mapKeys m ++ [k] := by
  induction m with
  | nil => simp [mapKeys, mapSet]
  | cons p rest ih =>
    by_cases h : p.1 = k
    · have hb := beq_iff_eq.mpr h
      simp [mapKeys, mapSet, hb, h]
    · have hb := beq_eq_false_iff_ne.mpr h
      simp only [mapKeys, List.map_cons] at ih ⊢
      simp only [mapSet, hb, Bool.false_eq_true, if_false, List.map_cons]
      rw [ih]
      by_cases hmem : k ∈ List.map Prod.fst rest
      · rw [if_pos hmem, if_pos (List.mem_cons_of_mem _ hmem)]
      · rw [if_neg hmem, if_neg (fun hc => by
          rcases List.mem_cons.mp hc with hc2 | hc2
          · exact h hc2.symm
          · exact hmem hc2)]
        rfl

theorem nodup_mapKeys_mapSet (m : IngMap) (k : String) (v : AggRec)
    (h : (mapKeys m).Nodup) : (mapKeys (mapSet m k v)).Nodup := by
  rw [mapKeys_mapSet]
  by_cases hmem : k ∈ mapKeys m
  · rwa [if_pos hmem]
  · rw [if_neg hmem]
    simpa [List.nodup_append] using ⟨h, hmem⟩

theorem nodup_mapKeys_buildMapL (l : List Ingredient) : (mapKeys (buildMapL l)).Nodup := by
  suffices haux : ∀ (l : List Ingredient) (m : IngMap), (mapKeys m).Nodup →
      (mapKeys (l.foldl (fun m ing =>
        mapSet m (jsToLower ing.name) ⟨ing.name, ing.category, ing.store, 0⟩) m)).Nodup by
    exact haux l [] (by simp [mapKeys])
  intro l
  induction l with
  | nil => intro m hm; exact hm
  | cons j rest ih => intro m hm; exact ih _ (nodup_mapKeys_mapSet _ _ _ hm)

theorem nodup_mapKeys_smartSet (m : IngMap) (n : String)
    (h : (mapKeys m).Nodup) : (mapKeys (smartSet m n)).Nodup := by
  unfold smartSet
  cases hm : mapGet m (jsToLower n) with
  | none => exact h
  | some r => exact nodup_mapKeys_mapSet _ _ _ h

theorem nodup_mapKeys_applySmart (m : IngMap)
    (h : (mapKeys m).Nodup) : (mapKeys (applySmart m)).Nodup :=
  nodup_mapKeys_smartSet _ _ (nodup_mapKeys_smartSet _ _ (nodup_mapKeys_smartSet _ _ h))

theorem nodup_mapKeys_addIng (qty : Nat) (m : IngMap) (s : String)
    (h : (mapKeys m).Nodup) : (mapKeys (addIng qty m s)).Nodup := by
  unfold addIng
  cases hm : mapGet m (jsToLower s) with
  | none => exact nodup_mapKeys_mapSet _ _ _ h
  | some r => exact nodup_mapKeys_mapSet _ _ _ h

theorem nodup_mapKeys_accumulate (cart : List CartItem) (m : IngMap)
    (h : (mapKeys m).Nodup) : (mapKeys (accumulate m cart)).Nodup := by
  induction cart generalizing m with
  | nil => exact h
  | cons item rest ih =>
    refine ih _ ?_
    unfold accumItem
    have haux : ∀ (l : List String) (m : IngMap), (mapKeys m).Nodup →
        (mapKeys (l.foldl (addIng (effQty item.quantity)) m)).Nodup := by
      intro l
      induction l with
      | nil => intro m hm; exact hm
      | cons s rest2 ih2 => intro m hm; exact ih2 _ (nodup_mapKeys_addIng _ _ _ hm)
    exact haux _ _ h

theorem finalMap_nodupKeys (cart : List CartItem) (master : List (List Ingredient)) :
    (mapKeys (finalMap cart master)).Nodup := by
  unfold finalMap
  by_cases h : hasRolls cart = true
  · rw [if_pos h]
    exact nodup_mapKeys_accumulate _ _ (nodup_mapKeys_applySmart _ (nodup_mapKeys_buildMapL _))
  · rw [if_neg h]
    exact nodup_mapKeys_accumulate _ _ (nodup_mapKeys_buildMapL _)

theorem mem_of_mapGet (m : IngMap) (k : String) (r : AggRec)
    (h : mapGet m k = some r) : (k, r) ∈ m := by
  unfold mapGet at h
  cases hf : m.find? (fun p => p.1 == k) with
  | none => rw [hf] at h; cases h
  | some p =>
    rw [hf] at h
    have hmem : p ∈ m := List.mem_of_find?_eq_some hf
    have hk : p.1 = k := by simpa using List.find?_some hf
    have hr : p.2 = r := Option.some.inj h
    have : p = (k, r) := Prod.ext hk hr
    rwa [this] at hmem

theorem mapGet_of_mem_nodup (m : IngMap) (k : String) (r : AggRec)
    (hm : (k, r) ∈ m) (hnd : (mapKeys m).Nodup) : mapGet m k = some r := by
  induction m with
  | nil => cases hm
  | cons p rest ih =>
    rw [mapKeys, List.map_cons, List.nodup_cons] at hnd
    rcases List.mem_cons.mp hm with hhead | htail
    · subst hhead
      simp [mapGet, List.find?]
    · by_cases hk : p.1 = k
      · exfalso
        apply hnd.1
        rw [hk]
        exact List.mem_map_of_mem Prod.fst htail
      · have hb := beq_eq_false_iff_ne.mpr hk
        simp only [mapGet, List.find?, hb]
        exact ih htail hnd.2

theorem mem_values_iff_get (m : IngMap) (hnd : (mapKeys m).Nodup) (r : AggRec) :
    r ∈ m.map Prod.snd ↔ ∃ k, mapGet m k = some r := by
  constructor
  · intro h
    rcases List.mem_map.mp h with ⟨p, hp, hr⟩
    exact ⟨p.1, by
      have : p = (p.1, r) := Prod.ext rfl hr
      rw [this] at hp
      exact mapGet_of_mem_nodup _ _ _ hp hnd⟩
  · rintro ⟨k, hk⟩
    exact List.mem_map_of_mem Prod.snd (mem_of_mapGet _ _ _ hk)

/-! ### Grouping and output membership -/

/-- All records stored in a grouped structure. -/
def groupedRecs (g : Grouped) : List AggRec := (g.map Prod.snd).flatten

theorem mem_groupedRecs_groupAdd (g : Grouped) (c : String) (x r : AggRec) :
    r ∈ groupedRecs (groupAdd g c x) ↔ r ∈ groupedRecs g ∨ r = x := by
  induction g with
  | nil => simp [groupAdd, groupedRecs]
  | cons p rest ih =>
    by_cases h : p.1 = c
    · have hb := beq_iff_eq.mpr h
      simp only [groupAdd, hb, if_true, groupedRecs, List.map_cons, List.flatten_cons,
        List.mem_append, List.mem_singleton]
      tauto
    · have hb := beq_eq_false_iff_ne.mpr h
      simp only [groupedRecs] at ih
      simp only [groupAdd, hb, Bool.false_eq_true, if_false, groupedRecs, List.map_cons,
        List.flatten_cons, List.mem_append]
      rw [ih]
      tauto

theorem mem_groupedRecs_buildGrouped_aux (l : List AggRec) (g : Grouped) (r : AggRec) :
    r ∈ groupedRecs (l.foldl
        (fun g r => if 0 < r.totalQty then groupAdd g (displayCat r) r else g) g) ↔
      r ∈ groupedRecs g ∨ (r ∈ l ∧ 0 < r.totalQty) := by
  induction l generalizing g with
  | nil => simp
  | cons x rest ih =>
    rw [List.foldl_cons]
    by_cases hx : 0 < x.totalQty
    · rw [if_pos hx, ih, mem_groupedRecs_groupAdd]
      constructor
      · rintro ((hg | hrx) | ⟨hrest, hpos⟩)
        · exact Or.inl hg
        · exact Or.inr ⟨by rw [hrx]; exact List.mem_cons_self _ _, by rw [hrx]; exact hx⟩
        · exact Or.inr ⟨List.mem_cons_of_mem _ hrest, hpos⟩
      · rintro (hg | ⟨hmem, hpos⟩)
        · exact Or.inl (Or.inl hg)
        · rcases List.mem_cons.mp hmem with hrx | hrest
          · exact Or.inl (Or.inr hrx)
          · exact Or.inr ⟨hrest, hpos⟩
    · rw [if_neg hx, ih]
      constructor
      · rintro (hg | ⟨hrest, hpos⟩)
        · exact Or.inl hg
        · exact Or.inr ⟨List.mem_cons_of_mem _ hrest, hpos⟩
      · rintro (hg | ⟨hmem, hpos⟩)
        · exact Or.inl hg
        · rcases List.mem_cons.mp hmem with hrx | hrest
          · exact absurd (by rw [hrx] at hpos; exact hpos) hx
          · exact Or.inr ⟨hrest, hpos⟩

theorem mem_groupedRecs_buildGrouped (m : IngMap) (r : AggRec) :
    r ∈ groupedRecs (buildGrouped m) ↔ r ∈ m.map Prod.snd ∧ 0 < r.totalQty := by
  unfold buildGrouped
  rw [mem_groupedRecs_buildGrouped_aux]
  simp [groupedRecs]

theorem mem_sortRecs (lc : String → String → Bool) (l : List AggRec) (r : AggRec) :
    r ∈ sortRecs lc l ↔ r ∈ l :=
  (List.perm_insertionSort _ l).mem_iff

theorem mem_outRecs_summarize (lc : String → String → Bool) (m : IngMap) (r : AggRec) :
    r ∈ outRecs (summarize lc m) ↔ r ∈ groupedRecs (buildGrouped m) := by
  unfold summarize outRecs groupedRecs
  simp only [List.map_map, List.mem_flatten, List.mem_map, Function.comp]
  constructor
  · rintro ⟨l, ⟨p, hp, hl⟩, hr⟩
    refine ⟨p.2, ⟨p, hp, rfl⟩, ?_⟩
    rw [← hl] at hr
    exact (mem_sortRecs lc p.2 r).mp hr
  · rintro ⟨l, ⟨p, hp, hl⟩, hr⟩
    refine ⟨sortRecs lc p.2, ⟨p, hp, rfl⟩, ?_⟩
    rw [← hl] at hr
    exact (mem_sortRecs lc p.2 r).mpr hr

theorem mem_outRecs_iff (lc : String → String → Bool) (cart : List CartItem)
    (master : List (List Ingredient)) (r : AggRec) :
    r ∈ outRecs (getCartIngredientsSummaryWith lc cart master) ↔
      (∃ k, mapGet (finalMap cart master) k = some r) ∧ 0 < r.totalQty := by
  unfold getCartIngredientsSummaryWith
  rw [mem_outRecs_summarize, mem_groupedRecs_buildGrouped,
    mem_values_iff_get _ (finalMap_nodupKeys cart master)]

/-! ### The map before accumulation, and consequences -/

/-- The ingredientMap after catalog construction and the smart-ingredient
step, before the per-item accumulation loop. -/
def phase1 (cart : List CartItem) (master : List (List Ingredient)) : IngMap :=
  if hasRolls cart then applySmart (buildMap master) else buildMap master

theorem finalMap_get (cart : List CartItem) (master : List (List Ingredient)) (k : String) :
    mapGet (finalMap cart master) k =
      match mapGet (phase1 cart master) k with
      | some r => some { r with totalQty := r.totalQty + cartContrib cart k }
      | none => (firstRef cart k).map (fun s => ⟨s, "Other", "", cartContrib cart k⟩) :=
  accumulate_get cart (phase1 cart master) k

theorem mapSet_mem_cases (m : IngMap) (k : String) (v : AggRec) (p : String × AggRec)
    (h : p ∈ mapSet m k v) : p = (k, v) ∨ p ∈ m := by
  induction m with
  | nil =>
    simp only [mapSet, List.mem_singleton] at h
    exact Or.inl h
  | cons q rest ih =>
    simp only [mapSet] at h
    by_cases hq : q.1 = k
    · rw [if_pos (beq_iff_eq.mpr hq)] at h
      rcases List.mem_cons.mp h with hh | ht
      · exact Or.inl hh
      · exact Or.inr (List.mem_cons_of_mem _ ht)
    · rw [if_neg (by simpa using hq)] at h
      rcases List.mem_cons.mp h with hh | ht
      · exact Or.inr (by rw [hh]; exact List.mem_cons_self _ _)
      · rcases ih ht with hc | hc
        · exact Or.inl hc
        · exact Or.inr (List.mem_cons_of_mem _ hc)

theorem foldl_buildStep_mem (l : List Ingredient) (m : IngMap) (p : String × AggRec)
    (h : p ∈ l.foldl (fun m ing =>
      mapSet m (jsToLower ing.name) ⟨ing.name, ing.category, ing.store, 0⟩) m) :
    (∃ ing ∈ l, p.2 = ⟨ing.name, ing.category, ing.store, 0⟩) ∨ p ∈ m := by
  induction l generalizing m with
  | nil => exact Or.inr h
  | cons j rest ih =>
    rw [List.foldl_cons] at h
    rcases ih _ h with ⟨ing, hi, he⟩ | hm
    · exact Or.inl ⟨ing, List.mem_cons_of_mem _ hi, he⟩
    · rcases mapSet_mem_cases _ _ _ _ hm with hh | hold
      · exact Or.inl ⟨j, List.mem_cons_self _ _, by rw [hh]⟩
      · exact Or.inr hold

theorem phase1_get_shape (cart : List CartItem) (master : List (List Ingredient))
    (k : String) (r : AggRec) (h : mapGet (phase1 cart master) k = some r) :
    jsToLower r.name = k ∧ r.totalQty ≤ 1 ∧
      ∃ ing ∈ master.flatten, r.name = ing.name ∧ r.category = ing.category ∧
        r.store = ing.store := by
  have hmem0 : ∀ (r2 : AggRec) (k2 : String), mapGet (buildMap master) k2 = some r2 →
      ∃ ing ∈ master.flatten, r2.name = ing.name ∧ r2.category = ing.category ∧
        r2.store = ing.store := by
    intro r2 k2 h2
    have hp := mem_of_mapGet _ _ _ h2
    rcases foldl_buildStep_mem master.flatten [] (k2, r2) hp with ⟨ing, hi, he⟩ | hm
    · have he2 : r2 = (⟨ing.name, ing.category, ing.store, 0⟩ : AggRec) := he
      exact ⟨ing, hi, by rw [he2], by rw [he2], by rw [he2]⟩
    · cases hm
  unfold phase1 at h
  by_cases hr : hasRolls cart = true
  · rw [if_pos hr, mapGet_applySmart] at h
    by_cases hk : k = "rice" ∨ k = "soy sauce" ∨ k = "wasabi"
    · rw [if_pos hk] at h
      cases hb : mapGet (buildMap master) k with
      | none => rw [hb] at h; cases h
      | some r0 =>
        rw [hb] at h
        have hr0 := buildMapL_get_shape master.flatten k r0 hb
        have he : r = { r0 with totalQty := 1 } := (Option.some.inj h).symm
        refine ⟨by rw [he]; exact hr0.2, by rw [he], ?_⟩
        rcases hmem0 r0 k hb with ⟨ing, hi, hn, hc, hs⟩
        exact ⟨ing, hi, by rw [he]; exact hn, by rw [he]; exact hc, by rw [he]; exact hs⟩
    · rw [if_neg hk] at h
      have hr0 := buildMapL_get_shape master.flatten k r h
      exact ⟨hr0.2, by omega, hmem0 r k h⟩
  · rw [if_neg hr] at h
    have hr0 := buildMapL_get_shape master.flatten k r h
    exact ⟨hr0.2, by omega, hmem0 r k h⟩

theorem firstRef_some (cart : List CartItem) (k s : String)
    (h : firstRef cart k = some s) :
    jsToLower s = k ∧ ∃ item ∈ cart, s ∈ itemIngs item := by
  unfold firstRef at h
  have h1 : jsToLower s = k := by simpa using List.find?_some h
  have h2 := List.mem_of_find?_eq_some h
  refine ⟨h1, ?_⟩
  rcases List.mem_flatten.mp h2 with ⟨l, hl, hs⟩
  rcases List.mem_map.mp hl with ⟨item, hitem, hleq⟩
  exact ⟨item, hitem, by rw [← hleq] at hs; exact hs⟩

theorem effQty_pos (q : Nat) : 1 ≤ effQty q := by
  unfold effQty
  by_cases h : q = 0
  · simp [h]
  · rw [beq_eq_false_iff_ne.mpr h]
    simpa using Nat.one_le_iff_ne_zero.mpr h

theorem refCount_pos_iff (item : CartItem) (k : String) :
    0 < refCount item k ↔ ∃ s ∈ itemIngs item, jsToLower s = k := by
  unfold refCount
  rw [List.length_pos]
  constructor
  · intro h
    rcases List.exists_mem_of_ne_nil _ h with ⟨s, hs⟩
    have := List.mem_filter.mp hs
    exact ⟨s, this.1, by simpa using this.2⟩
  · rintro ⟨s, hs, hk⟩
    intro hnil
    have : s ∈ (itemIngs item).filter (fun s => jsToLower s == k) :=
      List.mem_filter.mpr ⟨hs, by simpa using hk⟩
    rw [hnil] at this
    cases this

theorem cartContrib_pos_iff (cart : List CartItem) (k : String) :
    0 < cartContrib cart k ↔ ∃ item ∈ cart, 0 < refCount item k := by
  induction cart with
  | nil => simp [cartContrib]
  | cons item rest ih =>
    simp only [cartContrib, List.map_cons, List.sum_cons]
    constructor
    · intro h
      by_cases hrc : 0 < refCount item k
      · exact ⟨item, List.mem_cons_self _ _, hrc⟩
      · have h0 : refCount item k = 0 := by omega
        have ht : 0 < cartContrib rest k := by
          simpa [cartContrib, h0] using h
        rcases ih.mp ht with ⟨j, hj, hjc⟩
        exact ⟨j, List.mem_cons_of_mem _ hj, hjc⟩
    · rintro ⟨j, hj, hjc⟩
      rcases List.mem_cons.mp hj with hh | ht
      · have he := effQty_pos item.quantity
        have : 0 < effQty item.quantity * refCount item k :=
          Nat.mul_pos (by omega) (hh ▸ hjc)
        omega
      · have ht2 : 0 < cartContrib rest k := ih.mpr ⟨j, ht, hjc⟩
        have : cartContrib rest k = (rest.map
          (fun item => effQty item.quantity * refCount item k)).sum := rfl
        omega

theorem firstRef_none_iff (cart : List CartItem) (k : String) :
    firstRef cart k = none ↔ cartContrib cart k = 0 := by
  constructor
  · intro h
    by_contra hc
    have hpos : 0 < cartContrib cart k := Nat.pos_of_ne_zero hc
    rcases (cartContrib_pos_iff cart k).mp hpos with ⟨item, hitem, hrc⟩
    rcases (refCount_pos_iff item k).mp hrc with ⟨s, hs, hk⟩
    have hfind := List.find?_eq_none.mp h s
      (List.mem_flatten.mpr ⟨itemIngs item, List.mem_map_of_mem _ hitem, hs⟩)
    exact hfind (by simpa using hk)
  · intro h
    cases hf : firstRef cart k with
    | none => rfl
    | some s =>
      exfalso
      rcases firstRef_some cart k s hf with ⟨hk, item, hitem, hs⟩
      have hrc : 0 < refCount item k := (refCount_pos_iff item k).mpr ⟨s, hs, hk⟩
      have : 0 < cartContrib cart k := (cartContrib_pos_iff cart k).mpr ⟨item, hitem, hrc⟩
      omega

theorem finalMap_get_name (cart : List CartItem) (master : List (List Ingredient))
    (k : String) (r : AggRec) (h : mapGet (finalMap cart master) k = some r) :
    jsToLower r.name = k := by
  rw [finalMap_get] at h
  cases hp : mapGet (phase1 cart master) k with
  | some r0 =>
    rw [hp] at h
    have hname := (phase1_get_shape cart master k r0 hp).1
    have he : r = { r0 with totalQty := r0.totalQty + cartContrib cart k } :=
      (Option.some.inj h).symm
    rw [he]
    exact hname
  | none =>
    rw [hp] at h
    cases hf : firstRef cart k with
    | none => rw [hf] at h; cases h
    | some s =>
      rw [hf] at h
      have he : r = ⟨s, "Other", "", cartContrib cart k⟩ := (Option.some.inj h).symm
      rw [he]
      exact (firstRef_some cart k s hf).1

/-! ### Small helpers for the claims -/

theorem smart_key_cases (n : String) (hn : n ∈ smartNames) :
    jsToLower n = "rice" ∨ jsToLower n = "soy sauce" ∨ jsToLower n = "wasabi" := by
  simp only [smartNames, List.mem_cons, List.mem_singleton, List.not_mem_nil, or_false] at hn
  rcases hn with rfl | rfl | rfl
  · exact Or.inl (by decide)
  · exact Or.inr (Or.inl (by decide))
  · exact Or.inr (Or.inr (by decide))

theorem itemIngs_src (item : CartItem) (s : String) (h : s ∈ itemIngs item) :
    ∃ raw ∈ item.ingredients_inside ++ item.ingredients_on_top, jsTrim raw = s := by
  unfold itemIngs at h
  rcases List.mem_append.mp h with h2 | h2
  · rcases List.mem_map.mp (List.mem_filter.mp h2).1 with ⟨raw, hraw, he⟩
    exact ⟨raw, List.mem_append_left _ hraw, he⟩
  · rcases List.mem_map.mp (List.mem_filter.mp h2).1 with ⟨raw, hraw, he⟩
    exact ⟨raw, List.mem_append_right _ hraw, he⟩

/-! ### Claim C1 -/

/-- The cart of the spec's worked example. -/
def exCart : List CartItem :=
  [⟨"Spicy Tuna Roll", "Maki Rolls", ["Tuna", "Rice"], ["Spicy Mayo"], 2⟩]

/-- The catalog of the spec's worked example. -/
def exCatalog : List (List Ingredient) :=
  [[⟨"Tuna", "Fish", ""⟩, ⟨"Rice", "Grain", ""⟩, ⟨"Spicy Mayo", "Sauce", ""⟩,
    ⟨"Soy Sauce", "Condiment", ""⟩, ⟨"Wasabi", "Condiment", ""⟩]]

/-- C1: on the spec's worked example (one Spicy Tuna Roll at quantity 2
over the five-ingredient catalog), getCartIngredientsSummary reports
exactly Rice 3 (smart baseline 1 plus 2 from the item), Tuna 2,
Spicy Mayo 2, Soy Sauce 1, Wasabi 1, and no other records. -/
theorem c1_spec_example :
    totalOf (getCartIngredientsSummary exCart exCatalog) "Rice" = some 3 ∧
    totalOf (getCartIngredientsSummary exCart exCatalog) "Tuna" = some 2 ∧
    totalOf (getCartIngredientsSummary exCart exCatalog) "Spicy Mayo" = some 2 ∧
    totalOf (getCartIngredientsSummary exCart exCatalog) "Soy Sauce" = some 1 ∧
    totalOf (getCartIngredientsSummary exCart exCatalog) "Wasabi" = some 1 ∧
    (outRecs (getCartIngredientsSummary exCart exCatalog)).length = 5 := by
  decide

/-! ### Claim C2 -/

/-- C2 as frozen is false: with a roll in the cart but a catalog that does
not list the smart ingredients, no Rice record is produced at all (the
smart step only touches keys already present in the catalog map). -/
theorem c2_counterexample :
    hasRolls [⟨"R", "Maki Rolls", [], [], 1⟩] = true ∧
    ¬ ∃ r ∈ outRecs (getCartIngredientsSummary [⟨"R", "Maki Rolls", [], [], 1⟩] []),
        r.name = "Rice" := by
  decide

/-- C2 (amended): for every cart containing a roll-category entry, and
every catalog whose entries have pairwise distinct lower-cased names and
which contains entries named "Rice", "Soy Sauce" and "Wasabi", the output
contains a record of each of those names with totalQty at least 1. -/
theorem c2_smart_present (cart : List CartItem) (master : List (List Ingredient))
    (hroll : hasRolls cart = true)
    (hnd : (master.flatten.map (fun ing => jsToLower ing.name)).Nodup)
    (hhave : ∀ n ∈ smartNames, ∃ ing ∈ master.flatten, ing.name = n) :
    ∀ n ∈ smartNames, ∃ r ∈ outRecs (getCartIngredientsSummary cart master),
      r.name = n ∧ 1 ≤ r.totalQty := by
  intro n hn
  rcases hhave n hn with ⟨ing, hi, hname⟩
  have hbuild : mapGet (buildMap master) (jsToLower n) =
      some ⟨n, ing.category, ing.store, 0⟩ := by
    have := buildMapL_get_of_nodup master.flatten hnd ing hi
    rw [hname] at this
    exact this
  have hp1 : mapGet (phase1 cart master) (jsToLower n) =
      some ⟨n, ing.category, ing.store, 1⟩ := by
    unfold phase1
    rw [if_pos hroll, mapGet_applySmart, if_pos (smart_key_cases n hn), hbuild]
    rfl
  have hfin := finalMap_get cart master (jsToLower n)
  rw [hp1] at hfin
  refine ⟨⟨n, ing.category, ing.store, 1 + cartContrib cart (jsToLower n)⟩, ?_, rfl,
    Nat.le_add_right 1 _⟩
  have hmem := (mem_outRecs_iff strLe cart master
    ⟨n, ing.category, ing.store, 1 + cartContrib cart (jsToLower n)⟩).mpr
    ⟨⟨jsToLower n, hfin⟩, by simp⟩
  exact hmem

/-- Witness for the amended C2 on a concrete roll cart and catalog. -/
theorem c2_smart_present_witness :
    ∃ r ∈ outRecs (getCartIngredientsSummary
      [⟨"R", "Maki Rolls", [], [], 1⟩]
      [[⟨"Rice", "Grain", ""⟩, ⟨"Soy Sauce", "Condiment", ""⟩,
        ⟨"Wasabi", "Condiment", ""⟩]]),
      r.name = "Rice" ∧ 1 ≤ r.totalQty :=
  c2_smart_present _ _ (by decide) (by decide) (by decide) "Rice" (by decide)

/-! ### Claim C3 -/

/-- C3: in a cart without roll-category entries, a record named "Rice",
"Soy Sauce" or "Wasabi" only appears in the output when some cart item
itself lists that name (up to trimming and lower-casing) among its inside
or on-top ingredients. -/
theorem c3_no_rolls_no_smart (cart : List CartItem) (master : List (List Ingredient))
    (hroll : hasRolls cart = false) :
    ∀ n ∈ smartNames, ∀ r ∈ outRecs (getCartIngredientsSummary cart master),
      r.name = n →
      ∃ item ∈ cart, ∃ raw ∈ item.ingredients_inside ++ item.ingredients_on_top,
        jsToLower (jsTrim raw) = jsToLower n := by
  intro n hn r hr hrname
  rcases (mem_outRecs_iff strLe cart master r).mp hr with ⟨⟨k, hk⟩, hpos⟩
  have hcontrib : 0 < cartContrib cart k := by
    rw [finalMap_get] at hk
    cases hp : mapGet (phase1 cart master) k with
    | some r0 =>
      rw [hp] at hk
      have hshape : r0.totalQty = 0 := by
        have : mapGet (buildMap master) k = some r0 := by
          unfold phase1 at hp
          rwa [if_neg (by rw [hroll]; exact Bool.false_ne_true)] at hp
        exact (buildMapL_get_shape master.flatten k r0 this).1
      have he : r = { r0 with totalQty := r0.totalQty + cartContrib cart k } :=
        (Option.some.inj hk).symm
      have : r.totalQty = r0.totalQty + cartContrib cart k := by rw [he]
      omega
    | none =>
      rw [hp] at hk
      cases hf : firstRef cart k with
      | none => rw [hf] at hk; cases hk
      | some s =>
        rw [hf] at hk
        have he : r = ⟨s, "Other", "", cartContrib cart k⟩ := (Option.some.inj hk).symm
        have : r.totalQty = cartContrib cart k := by rw [he]
        omega
  have hkey : jsToLower r.name = k := finalMap_get_name cart master k r hk
  rcases (cartContrib_pos_iff cart k).mp hcontrib with ⟨item, hitem, hrc⟩
  rcases (refCount_pos_iff item k).mp hrc with ⟨s, hs, hsk⟩
  rcases itemIngs_src item s hs with ⟨raw, hraw, hrawe⟩
  refine ⟨item, hitem, raw, hraw, ?_⟩
  rw [hrawe, hsk, ← hkey, hrname]

/-- Witness for C3 on a concrete roll-free cart that does reference Rice,
instantiated at the Rice record the aggregator produces for it. -/
theorem c3_witness :
    ∃ item ∈ [(⟨"Salmon Nigiri", "Nigiri", ["Rice"], [], 1⟩ : CartItem)],
      ∃ raw ∈ item.ingredients_inside ++ item.ingredients_on_top,
        jsToLower (jsTrim raw) = jsToLower "Rice" :=
  c3_no_rolls_no_smart [⟨"Salmon Nigiri", "Nigiri", ["Rice"], [], 1⟩]
    [[⟨"Rice", "Grain", ""⟩]] (by decide) "Rice" (by decide)
    ⟨"Rice", "Grain", "", 1⟩ (by decide) (by decide)

/-! ### Claim C4 -/

/-- C4 as frozen is false: a quantity-1 roll listing Rice both inside and
on top, over a catalog containing Rice, yields totalQty 3 (smart baseline
1 plus the two occurrences), not 2. -/
theorem c4_counterexample :
    (⟨"R", "Maki Rolls", ["Rice"], ["Rice"], 1⟩ : CartItem).quantity = 1 ∧
    "Rice" ∈ (⟨"R", "Maki Rolls", ["Rice"], ["Rice"], 1⟩ : CartItem).ingredients_inside ∧
    "Rice" ∈ (⟨"R", "Maki Rolls", ["Rice"], ["Rice"], 1⟩ : CartItem).ingredients_on_top ∧
    totalOf (getCartIngredientsSummary [⟨"R", "Maki Rolls", ["Rice"], ["Rice"], 1⟩]
      [[⟨"Rice", "Grain", ""⟩]]) "Rice" ≠ some 2 ∧
    totalOf (getCartIngredientsSummary [⟨"R", "Maki Rolls", ["Rice"], ["Rice"], 1⟩]
      [[⟨"Rice", "Grain", ""⟩]]) "Rice" = some 3 := by
  decide

theorem applySmart_none (m : IngMap) (k : String) (h : mapGet m k = none) :
    mapGet (applySmart m) k = none := by
  rw [mapGet_applySmart]
  split <;> simp [h]

theorem hasRolls_singleton (item : CartItem) :
    hasRolls [item] = isRollCat item.category := by
  simp [hasRolls]

/-- C4 (amended): in a single-item cart of quantity 1 that lists the same
ingredient name (trimmed, case-insensitively) exactly once inside and
exactly once on top, that ingredient is reported with totalQty 2 —
provided it does not additionally receive the smart baseline (it is not
one of Rice / Soy Sauce / Wasabi present in the catalog while the item is
a roll), in which case the total is 3 instead. -/
theorem c4_double_count (item : CartItem) (master : List (List Ingredient)) (n : String)
    (hq : item.quantity = 1)
    (hin : (((item.ingredients_inside.map jsTrim).filter (fun s => !(s == ""))).filter
      (fun s => jsToLower s == jsToLower n)).length = 1)
    (htop : (((item.ingredients_on_top.map jsTrim).filter (fun s => !(s == ""))).filter
      (fun s => jsToLower s == jsToLower n)).length = 1)
    (hnosmart : ¬(isRollCat item.category = true ∧
      (jsToLower n = "rice" ∨ jsToLower n = "soy sauce" ∨ jsToLower n = "wasabi") ∧
      ∃ ing ∈ master.flatten, jsToLower ing.name = jsToLower n)) :
    ∃ r ∈ outRecs (getCartIngredientsSummary [item] master),
      jsToLower r.name = jsToLower n ∧ r.totalQty = 2 := by
  have hrc : refCount item (jsToLower n) = 2 := by
    unfold refCount itemIngs
    rw [List.filter_append, List.length_append, hin, htop]
  have hcontrib : cartContrib [item] (jsToLower n) = 2 := by
    simp [cartContrib, hq, effQty, hrc]
  have hphase : mapGet (phase1 [item] master) (jsToLower n) =
      mapGet (buildMap master) (jsToLower n) := by
    unfold phase1
    by_cases hr : hasRolls [item] = true
    · rw [if_pos hr, mapGet_applySmart]
      by_cases hk : jsToLower n = "rice" ∨ jsToLower n = "soy sauce" ∨ jsToLower n = "wasabi"
      · rw [if_pos hk]
        have hroll : isRollCat item.category = true := by
          rwa [hasRolls_singleton] at hr
        have hnone : mapGet (buildMap master) (jsToLower n) = none := by
          apply buildMapL_get_none
          intro ing hi hlow
          exact hnosmart ⟨hroll, hk, ing, hi, hlow⟩
        rw [hnone]
        rfl
      · rw [if_neg hk]
    · rw [if_neg hr]
  have hfin := finalMap_get [item] master (jsToLower n)
  rw [hphase] at hfin
  cases hb : mapGet (buildMap master) (jsToLower n) with
  | some r0 =>
    rw [hb] at hfin
    have hshape := buildMapL_get_shape master.flatten (jsToLower n) r0 hb
    refine ⟨{ r0 with totalQty := r0.totalQty + cartContrib [item] (jsToLower n) },
      (mem_outRecs_iff strLe [item] master _).mpr ⟨⟨jsToLower n, hfin⟩, by
        simp [hcontrib]⟩, hshape.2, by simp [hshape.1, hcontrib]⟩
  | none =>
    rw [hb] at hfin
    cases hf : firstRef [item] (jsToLower n) with
    | none =>
      exfalso
      have := (firstRef_none_iff [item] (jsToLower n)).mp hf
      omega
    | some s =>
      rw [hf] at hfin
      have hs := firstRef_some [item] (jsToLower n) s hf
      refine ⟨⟨s, "Other", "", cartContrib [item] (jsToLower n)⟩,
        (mem_outRecs_iff strLe [item] master _).mpr ⟨⟨jsToLower n, hfin⟩, by
          simp [hcontrib]⟩, hs.1, by simp [hcontrib]⟩

/-- Witness for the amended C4: a non-catalog ingredient listed inside and
on top of one quantity-1 item totals 2. -/
theorem c4_double_count_witness :
    ∃ r ∈ outRecs (getCartIngredientsSummary
      [⟨"X", "Appetizer", ["Gari"], ["Gari"], 1⟩] []),
      jsToLower r.name = jsToLower "Gari" ∧ r.totalQty = 2 :=
  c4_double_count _ _ _ (by decide) (by decide) (by decide) (by decide)

/-! ### Claim C5 -/

theorem find?_eq_head_filter {α : Type} (p : α → Bool) (l : List α) :
    l.find? p = (l.filter p).head? := by
  induction l with
  | nil => rfl
  | cons a rest ih =>
    by_cases h : p a = true
    · rw [List.find?_cons_of_pos _ h, List.filter_cons_of_pos h]
      rfl
    · rw [List.find?_cons_of_neg _ h, List.filter_cons_of_neg h]
      exact ih

/-- C5: a cart item that references (exactly once, with trimmed spelling n)
an ingredient absent from the catalog, the reference being the only one to
that name in the whole cart, produces the fallback record
{ name := n, category := Other, store := empty, totalQty := q } where q is
the item's (effective) quantity. -/
theorem c5_fallback (cart₁ cart₂ : List CartItem) (item : CartItem)
    (master : List (List Ingredient)) (n : String) (q : Nat)
    (hq : item.quantity = q) (hq1 : 1 ≤ q)
    (honce : (itemIngs item).filter (fun s => jsToLower s == jsToLower n) = [n])
    (hnocat : ∀ ing ∈ master.flatten, jsToLower ing.name ≠ jsToLower n)
    (hothers : ∀ j ∈ cart₁ ++ cart₂, refCount j (jsToLower n) = 0) :
    (⟨n, "Other", "", q⟩ : AggRec) ∈
      outRecs (getCartIngredientsSummary (cart₁ ++ item :: cart₂) master) := by
  have hrc : refCount item (jsToLower n) = 1 := by
    unfold refCount
    rw [honce]
    rfl
  have hcontribL : cartContrib cart₁ (jsToLower n) = 0 := by
    apply List.sum_eq_zero
    intro x hx
    rcases List.mem_map.mp hx with ⟨j, hj, he⟩
    rw [← he, hothers j (List.mem_append_left _ hj), Nat.mul_zero]
  have hcontribR : cartContrib cart₂ (jsToLower n) = 0 := by
    apply List.sum_eq_zero
    intro x hx
    rcases List.mem_map.mp hx with ⟨j, hj, he⟩
    rw [← he, hothers j (List.mem_append_right _ hj), Nat.mul_zero]
  have heq : effQty item.quantity = q := by
    rw [hq]
    unfold effQty
    have : (q == 0) = false := by
      apply beq_eq_false_iff_ne.mpr
      omega
    rw [this]
    rfl
  have hcontrib : cartContrib (cart₁ ++ item :: cart₂) (jsToLower n) = q := by
    unfold cartContrib
    rw [List.map_append, List.sum_append, List.map_cons, List.sum_cons]
    unfold cartContrib at hcontribL hcontribR
    rw [hcontribL, hcontribR, heq, hrc, Nat.mul_one, Nat.zero_add, Nat.add_zero]
  have hnomatchL : ∀ s ∈ ((cart₁.map itemIngs).flatten), (jsToLower s == jsToLower n) = false := by
    intro s hs
    rcases List.mem_flatten.mp hs with ⟨l, hl, hsl⟩
    rcases List.mem_map.mp hl with ⟨j, hj, he⟩
    have h0 := hothers j (List.mem_append_left _ hj)
    unfold refCount at h0
    rw [List.length_eq_zero] at h0
    apply beq_eq_false_iff_ne.mpr
    intro hcontr
    have : s ∈ (itemIngs j).filter (fun s => jsToLower s == jsToLower n) :=
      List.mem_filter.mpr ⟨by rw [← he] at hsl; exact hsl, by simpa using hcontr⟩
    rw [h0] at this
    cases this
  have hfirst : firstRef (cart₁ ++ item :: cart₂) (jsToLower n) = some n := by
    unfold firstRef
    rw [List.map_append, List.flatten_append, find?_append]
    have hL : ((cart₁.map itemIngs).flatten).find?
        (fun s => jsToLower s == jsToLower n) = none :=
      List.find?_eq_none.mpr (fun s hs => by rw [hnomatchL s hs]; exact Bool.false_ne_true)
    rw [hL]
    show (((item :: cart₂).map itemIngs).flatten).find?
      (fun s => jsToLower s == jsToLower n) = some n
    rw [List.map_cons, List.flatten_cons, find?_append, find?_eq_head_filter, honce]
    rfl
  have hphase : mapGet (phase1 (cart₁ ++ item :: cart₂) master) (jsToLower n) = none := by
    have hnone : mapGet (buildMap master) (jsToLower n) = none :=
      buildMapL_get_none master.flatten (jsToLower n) hnocat
    unfold phase1
    by_cases hr : hasRolls (cart₁ ++ item :: cart₂) = true
    · rw [if_pos hr]
      exact applySmart_none _ _ hnone
    · rw [if_neg hr]
      exact hnone
  have hfin := finalMap_get (cart₁ ++ item :: cart₂) master (jsToLower n)
  rw [hphase, hfirst, hcontrib] at hfin
  exact (mem_outRecs_iff strLe _ master _).mpr ⟨⟨jsToLower n, hfin⟩, by
    simpa using hq1⟩

/-- Witness for C5: the spec's Gari example, quantity 3. -/
theorem c5_fallback_witness :
    (⟨"Gari", "Other", "", 3⟩ : AggRec) ∈
      outRecs (getCartIngredientsSummary
        ([] ++ (⟨"X", "Appetizer", ["Gari"], [], 3⟩ : CartItem) :: []) []) :=
  c5_fallback [] [] _ [] "Gari" 3 (by decide) (by decide) (by decide)
    (by intro ing hi; cases hi) (by intro j hj; cases hj)

/-! ### Claims C9 and C10: totality and quantity defaulting -/

theorem effQty_idem (q : Nat) : effQty (effQty q) = effQty q := by
  unfold effQty
  by_cases h : q = 0
  · simp [h]
  · simp [beq_eq_false_iff_ne.mpr h]

theorem accumItem_quantity_norm (m : IngMap) (item : CartItem) :
    accumItem m { item with quantity := effQty item.quantity } = accumItem m item := by
  unfold accumItem
  have h1 : itemIngs { item with quantity := effQty item.quantity } = itemIngs item := rfl
  rw [h1]
  have h2 : effQty ({ item with quantity := effQty item.quantity } : CartItem).quantity =
      effQty item.quantity := effQty_idem item.quantity
  rw [h2]

theorem accumulate_quantity_norm (cart : List CartItem) (m : IngMap) :
    accumulate m (cart.map (fun i => { i with quantity := effQty i.quantity })) =
      accumulate m cart := by
  induction cart generalizing m with
  | nil => rfl
  | cons item rest ih =>
    show accumulate (accumItem m { item with quantity := effQty item.quantity })
      (rest.map (fun i => { i with quantity := effQty i.quantity })) = _
    rw [accumItem_quantity_norm, ih]
    rfl

theorem hasRolls_quantity_norm (cart : List CartItem) :
    hasRolls (cart.map (fun i => { i with quantity := effQty i.quantity })) =
      hasRolls cart := by
  unfold hasRolls
  rw [List.any_map]
  rfl

/-- C9: getCartIngredientsSummary is a total pure function over every cart
and catalog: every record it reports has totalQty at least 1 (a grouped
result is always produced, never an exception), and replacing every
missing/zero quantity by its default 1 does not change the output. -/
theorem c9_total_defaults (cart : List CartItem) (master : List (List Ingredient)) :
    (∀ r ∈ outRecs (getCartIngredientsSummary cart master), 1 ≤ r.totalQty) ∧
    getCartIngredientsSummary cart master =
      getCartIngredientsSummary
        (cart.map (fun i => { i with quantity := effQty i.quantity })) master := by
  constructor
  · intro r hr
    have := ((mem_outRecs_iff strLe cart master r).mp hr).2
    omega
  · unfold getCartIngredientsSummary getCartIngredientsSummaryWith
    have hfm : finalMap (cart.map (fun i => { i with quantity := effQty i.quantity })) master =
        finalMap cart master := by
      unfold finalMap
      rw [hasRolls_quantity_norm, accumulate_quantity_norm]
    rw [hfm]

/-- C10: a cart entry whose quantity field is 0 (JS: a falsy quantity) is
aggregated exactly as if its quantity were 1; its per-occurrence
contribution at any key is 1 * refCount. -/
theorem c10_zero_quantity (item : CartItem) (hq : item.quantity = 0)
    (cart₁ cart₂ : List CartItem) (master : List (List Ingredient)) :
    getCartIngredientsSummary (cart₁ ++ item :: cart₂) master =
      getCartIngredientsSummary (cart₁ ++ { item with quantity := 1 } :: cart₂) master ∧
    ∀ k, effQty item.quantity * refCount item k = refCount item k := by
  have hone : ({ item with quantity := 1 } : CartItem) =
      { item with quantity := effQty item.quantity } := by
    rw [hq]
    rfl
  constructor
  · unfold getCartIngredientsSummary getCartIngredientsSummaryWith
    have hfm : finalMap (cart₁ ++ item :: cart₂) master =
        finalMap (cart₁ ++ { item with quantity := 1 } :: cart₂) master := by
      unfold finalMap
      have hroll : hasRolls (cart₁ ++ item :: cart₂) =
          hasRolls (cart₁ ++ { item with quantity := 1 } :: cart₂) := by
        unfold hasRolls
        rw [List.any_append, List.any_append]
        rfl
      rw [hroll]
      unfold accumulate
      rw [List.foldl_append, List.foldl_append, List.foldl_cons, List.foldl_cons, hone,
        accumItem_quantity_norm]
    rw [hfm]
  · intro k
    rw [hq]
    show effQty 0 * refCount item k = refCount item k
    rw [show effQty 0 = 1 from rfl, Nat.one_mul]

/-- Witness for C10 at a concrete zero-quantity entry. -/
theorem c10_zero_quantity_witness :
    (getCartIngredientsSummary ([] ++ (⟨"X", "Appetizer", ["Gari"], [], 0⟩ : CartItem) :: [])
        [] =
      getCartIngredientsSummary
        ([] ++ ({ (⟨"X", "Appetizer", ["Gari"], [], 0⟩ : CartItem) with quantity := 1 }) :: [])
        []) ∧
    ∀ k, effQty (⟨"X", "Appetizer", ["Gari"], [], 0⟩ : CartItem).quantity *
        refCount ⟨"X", "Appetizer", ["Gari"], [], 0⟩ k =
      refCount ⟨"X", "Appetizer", ["Gari"], [], 0⟩ k :=
  c10_zero_quantity _ (by decide) [] [] []

/-! ### Claims C7 and C8: cart mutation operations -/

theorem addToCart_wf (cart : List CartItem) (item : CartItem) (h : cartWF cart) :
    cartWF (addToCart cart item) := by
  obtain ⟨hpair, hqty⟩ := h
  unfold addToCart
  by_cases hfound : cart.any (fun i => sameKey i item) = true
  · rw [if_pos hfound]
    constructor
    · rw [List.pairwise_map]
      refine hpair.imp ?_
      intro a b hab
      by_cases ha : sameKey a item = true
      · rw [if_pos ha]
        by_cases hb2 : sameKey b item = true
        · rw [if_pos hb2]
          exact hab
        · rw [if_neg hb2]
          exact hab
      · rw [if_neg ha]
        by_cases hb2 : sameKey b item = true
        · rw [if_pos hb2]
          exact hab
        · rw [if_neg hb2]
          exact hab
    · intro i hi
      rcases List.mem_map.mp hi with ⟨j, hj, he⟩
      rcases hqty j hj with ⟨hjl, hju⟩
      by_cases hs : sameKey j item = true
      · rw [← he, if_pos hs]
        refine ⟨?_, ?_⟩
        · show 1 ≤ min (j.quantity + 1) 5
          omega
        · show min (j.quantity + 1) 5 ≤ 5
          omega
      · rw [← he, if_neg hs]
        exact ⟨hjl, hju⟩
  · rw [if_neg hfound]
    have hnot : ∀ i ∈ cart, sameKey i item = false := by
      intro i hi
      rcases Bool.eq_false_or_eq_true (sameKey i item) with hf | ht
      · exact absurd (List.any_eq_true.mpr ⟨i, hi, hf⟩) hfound
      · exact ht
    constructor
    · apply List.pairwise_append.mpr
      refine ⟨hpair, List.pairwise_singleton _ _, ?_⟩
      intro a ha b hb
      have hbe : b = { item with quantity := 1 } := List.mem_singleton.mp hb
      rw [hbe]
      show sameKey a item = false
      exact hnot a ha
    · intro i hi
      rcases List.mem_append.mp hi with hc | hn
      · exact hqty i hc
      · have : i = { item with quantity := 1 } := List.mem_singleton.mp hn
        rw [this]
        exact ⟨Nat.le_refl 1, by show (1 : Nat) ≤ 5; omega⟩

theorem removeFromCart_wf (cart : List CartItem) (item : CartItem) (h : cartWF cart) :
    cartWF (removeFromCart cart item) :=
  ⟨h.1.sublist (List.filter_sublist _), fun i hi => h.2 i (List.mem_of_mem_filter hi)⟩

theorem setCartQuantity_wf (cart : List CartItem) (item : CartItem) (qty : Int)
    (h : cartWF cart) : cartWF (setCartQuantity cart item qty) := by
  obtain ⟨hpair, hqty⟩ := h
  unfold setCartQuantity
  by_cases hq : qty < 1
  · rw [if_pos hq]
    exact removeFromCart_wf cart item ⟨hpair, hqty⟩
  · rw [if_neg hq]
    constructor
    · rw [List.pairwise_map]
      refine hpair.imp ?_
      intro a b hab
      by_cases ha : sameKey a item = true
      · rw [if_pos ha]
        by_cases hb2 : sameKey b item = true
        · rw [if_pos hb2]
          exact hab
        · rw [if_neg hb2]
          exact hab
      · rw [if_neg ha]
        by_cases hb2 : sameKey b item = true
        · rw [if_pos hb2]
          exact hab
        · rw [if_neg hb2]
          exact hab
    · intro i hi
      rcases List.mem_map.mp hi with ⟨j, hj, he⟩
      by_cases hs : sameKey j item = true
      · rw [← he, if_pos hs]
        refine ⟨?_, ?_⟩
        · show 1 ≤ (min (max qty 1) 5).toNat
          omega
        · show (min (max qty 1) 5).toNat ≤ 5
          omega
      · rw [← he, if_neg hs]
        exact hqty j hj

/-- C7: the cart invariant (pairwise distinct (name, category) keys,
quantities in [1, 5]) is preserved by addToCart, removeFromCart and
setCartQuantity; addToCart caps an existing entry at 5 and inserts new
entries at quantity 1. -/
theorem c7_cart_invariant (cart : List CartItem) (item : CartItem) (h : cartWF cart) :
    cartWF (addToCart cart item) ∧ cartWF (removeFromCart cart item) ∧
    (∀ qty : Int, cartWF (setCartQuantity cart item qty)) ∧
    (cart.any (fun i => sameKey i item) = true →
      addToCart cart item = cart.map (fun i =>
        if sameKey i item then { i with quantity := min (i.quantity + 1) 5 } else i)) ∧
    (cart.any (fun i => sameKey i item) = false →
      addToCart cart item = cart ++ [{ item with quantity := 1 }]) := by
  refine ⟨addToCart_wf cart item h, removeFromCart_wf cart item h,
    fun qty => setCartQuantity_wf cart item qty h, ?_, ?_⟩
  · intro hf
    unfold addToCart
    rw [if_pos hf]
  · intro hf
    unfold addToCart
    rw [if_neg (by rw [hf]; exact Bool.false_ne_true)]

/-- Witness for C7 on a concrete well-formed cart. -/
theorem c7_cart_invariant_witness :
    cartWF (addToCart [⟨"A", "Nigiri", [], [], 2⟩] ⟨"A", "Nigiri", [], [], 5⟩) ∧
    cartWF (removeFromCart [⟨"A", "Nigiri", [], [], 2⟩] ⟨"A", "Nigiri", [], [], 5⟩) ∧
    cartWF (setCartQuantity [⟨"A", "Nigiri", [], [], 2⟩] ⟨"A", "Nigiri", [], [], 5⟩ 9) :=
  (fun h => ⟨h.1, h.2.1, h.2.2.1 9⟩)
    (c7_cart_invariant [⟨"A", "Nigiri", [], [], 2⟩] ⟨"A", "Nigiri", [], [], 5⟩ (by
      refine ⟨List.pairwise_singleton _ _, ?_⟩
      intro i hi
      rw [List.mem_singleton.mp hi]
      exact ⟨by show (1 : Nat) ≤ 2; omega, by show (2 : Nat) ≤ 5; omega⟩))

/-- C8: setCartQuantity with qty below 1 is exactly removeFromCart, and
with qty at least 1 it updates every matching entry to the clamped
quantity min(max(qty, 1), 5). -/
theorem c8_setCartQuantity_spec (cart : List CartItem) (item : CartItem) (qty : Int) :
    (qty < 1 → setCartQuantity cart item qty = removeFromCart cart item) ∧
    (1 ≤ qty → setCartQuantity cart item qty =
      cart.map (fun i => if sameKey i item then
        { i with quantity := (min (max qty 1) 5).toNat } else i)) := by
  constructor
  · intro h
    unfold setCartQuantity
    rw [if_pos h]
  · intro h
    unfold setCartQuantity
    rw [if_neg (by omega)]

/-- Witness for C8 at qty 0 (removal) and qty 9 (clamped to 5). -/
theorem c8_setCartQuantity_spec_witness :
    setCartQuantity [⟨"A", "Nigiri", [], [], 2⟩] ⟨"A", "Nigiri", [], [], 2⟩ 0 =
      removeFromCart [⟨"A", "Nigiri", [], [], 2⟩] ⟨"A", "Nigiri", [], [], 2⟩ ∧
    setCartQuantity [⟨"A", "Nigiri", [], [], 2⟩] ⟨"A", "Nigiri", [], [], 2⟩ 9 =
      [⟨"A", "Nigiri", [], [], 2⟩].map (fun i =>
        if sameKey i ⟨"A", "Nigiri", [], [], 2⟩ then
          { i with quantity := (min (max (9 : Int) 1) 5).toNat } else i) :=
  ⟨(c8_setCartQuantity_spec _ _ 0).1 (by decide),
    (c8_setCartQuantity_spec _ _ 9).2 (by decide)⟩

/-! ### Order properties of the code-point comparison -/

theorem strLtChars_asymm (x y : List Char) (h : strLtChars x y = true) :
    strLtChars y x = false := by
  induction x generalizing y with
  | nil =>
    cases y with
    | nil => exact absurd h (by rw [strLtChars]; exact Bool.false_ne_true)
    | cons b bs => rfl
  | cons a as ih =>
    cases y with
    | nil => exact absurd h (by rw [strLtChars]; exact Bool.false_ne_true)
    | cons b bs =>
      unfold strLtChars at h ⊢
      rcases Nat.lt_trichotomy a.toNat b.toNat with h1 | h1 | h1
      · rw [if_neg (by omega), if_pos h1]
      · rw [if_neg (by omega), if_neg (by omega)] at h
        rw [if_neg (by omega), if_neg (by omega)]
        exact ih bs h
      · rw [if_neg (by omega), if_pos h1] at h
        cases h

theorem strLtChars_trans (x y z : List Char) (hxy : strLtChars x y = true)
    (hyz : strLtChars y z = true) : strLtChars x z = true := by
  induction x generalizing y z with
  | nil =>
    cases z with
    | nil =>
      cases y with
      | nil => exact hyz
      | cons b bs => exact absurd hyz (by rw [strLtChars]; exact Bool.false_ne_true)
    | cons c cs => rfl
  | cons a as ih =>
    cases y with
    | nil => exact absurd hxy (by rw [strLtChars]; exact Bool.false_ne_true)
    | cons b bs =>
      cases z with
      | nil => exact absurd hyz (by rw [strLtChars]; exact Bool.false_ne_true)
      | cons c cs =>
        unfold strLtChars at hxy hyz ⊢
        rcases Nat.lt_trichotomy a.toNat b.toNat with h1 | h1 | h1
        · rcases Nat.lt_trichotomy b.toNat c.toNat with h2 | h2 | h2
          · rw [if_pos (by omega)]
          · rw [if_pos (by omega)]
          · rw [if_neg (by omega), if_pos h2] at hyz
            cases hyz
        · rw [if_neg (by omega), if_neg (by omega)] at hxy
          rcases Nat.lt_trichotomy b.toNat c.toNat with h2 | h2 | h2
          · rw [if_pos (by omega)]
          · rw [if_neg (by omega), if_neg (by omega)] at hyz
            rw [if_neg (by omega), if_neg (by omega)]
            exact ih bs cs hxy hyz
          · rw [if_neg (by omega), if_pos h2] at hyz
            cases hyz
        · rw [if_neg (by omega), if_pos h1] at hxy
          cases hxy

theorem strLtChars_trichot (x y : List Char) :
    strLtChars x y = true ∨ x = y ∨ strLtChars y x = true := by
  induction x generalizing y with
  | nil =>
    cases y with
    | nil => exact Or.inr (Or.inl rfl)
    | cons b bs => exact Or.inl rfl
  | cons a as ih =>
    cases y with
    | nil => exact Or.inr (Or.inr rfl)
    | cons b bs =>
      rcases Nat.lt_trichotomy a.toNat b.toNat with h1 | h1 | h1
      · exact Or.inl (by unfold strLtChars; rw [if_pos h1])
      · have hab : a = b := Char.ext (UInt32.ext h1)
        rcases ih bs with h2 | h2 | h2
        · exact Or.inl (by
            unfold strLtChars
            rw [if_neg (by omega), if_neg (by omega)]
            exact h2)
        · exact Or.inr (Or.inl (by rw [hab, h2]))
        · exact Or.inr (Or.inr (by
            unfold strLtChars
            rw [if_neg (by omega), if_neg (by omega)]
            exact h2))
      · exact Or.inr (Or.inr (by unfold strLtChars; rw [if_pos h1]))

theorem strLe_total (a b : String) : strLe a b = true ∨ strLe b a = true := by
  unfold strLe
  by_cases h : strLtChars b.data a.data = true
  · right
    rw [strLtChars_asymm _ _ h]
    rfl
  · left
    rw [Bool.not_eq_true] at h
    rw [h]
    rfl

theorem strLe_trans (a b c : String) (hab : strLe a b = true) (hbc : strLe b c = true) :
    strLe a c = true := by
  unfold strLe at hab hbc ⊢
  rw [Bool.not_eq_true'] at hab hbc ⊢
  by_contra hc
  rw [Bool.not_eq_false] at hc
  rcases strLtChars_trichot c.data b.data with h1 | h1 | h1
  · rw [h1] at hbc
    cases hbc
  · rw [h1] at hc
    rw [hc] at hab
    cases hab
  · have := strLtChars_trans _ _ _ h1 hc
    rw [this] at hab
    cases hab

/-! ### Claim C6: grouping keys and ordering -/

theorem groupAdd_keys (g : Grouped) (c : String) (x : AggRec) :
    (groupAdd g c x).map Prod.fst =
      if c ∈ g.map Prod.fst then g.map Prod.fst else g.map Prod.fst ++ [c] := by
  induction g with
  | nil => simp [groupAdd]
  | cons p rest ih =>
    by_cases h : p.1 = c
    · have hb := beq_iff_eq.mpr h
      simp [groupAdd, hb, h]
    · have hb := beq_eq_false_iff_ne.mpr h
      simp only [groupAdd, hb, Bool.false_eq_true, if_false, List.map_cons]
      rw [ih]
      by_cases hmem : c ∈ rest.map Prod.fst
      · rw [if_pos hmem, if_pos (List.mem_cons_of_mem _ hmem)]
      · rw [if_neg hmem, if_neg (fun hc2 => by
          rcases List.mem_cons.mp hc2 with hc3 | hc3
          · exact h hc3.symm
          · exact hmem hc3)]
        rfl

theorem buildGrouped_keys_nodup (m : IngMap) : ((buildGrouped m).map Prod.fst).Nodup := by
  suffices haux : ∀ (l : List AggRec) (g : Grouped), (g.map Prod.fst).Nodup →
      ((l.foldl (fun g r => if 0 < r.totalQty then groupAdd g (displayCat r) r else g)
        g).map Prod.fst).Nodup by
    exact haux _ [] (by simp)
  intro l
  induction l with
  | nil => intro g hg; exact hg
  | cons x rest ih =>
    intro g hg
    rw [List.foldl_cons]
    by_cases hx : 0 < x.totalQty
    · rw [if_pos hx]
      refine ih _ ?_
      rw [groupAdd_keys]
      by_cases hmem : displayCat x ∈ g.map Prod.fst
      · rwa [if_pos hmem]
      · rw [if_neg hmem]
        refine List.Nodup.append hg (List.nodup_singleton _) ?_
        intro a ha hb
        rw [List.mem_singleton.mp hb] at ha
        exact hmem ha
    · rw [if_neg hx]
      exact ih _ hg

theorem buildGrouped_keys_mem (l : List AggRec) (g : Grouped) (c : String) :
    (c ∈ (l.foldl (fun g r => if 0 < r.totalQty then groupAdd g (displayCat r) r else g)
        g).map Prod.fst) ↔
      c ∈ g.map Prod.fst ∨ ∃ r ∈ l, 0 < r.totalQty ∧ displayCat r = c := by
  induction l generalizing g with
  | nil => simp
  | cons x rest ih =>
    rw [List.foldl_cons]
    by_cases hx : 0 < x.totalQty
    · rw [if_pos hx, ih]
      have hga : c ∈ (groupAdd g (displayCat x) x).map Prod.fst ↔
          c ∈ g.map Prod.fst ∨ c = displayCat x := by
        rw [groupAdd_keys]
        by_cases hmem : displayCat x ∈ g.map Prod.fst
        · rw [if_pos hmem]
          constructor
          · exact Or.inl
          · rintro (hc | hc)
            · exact hc
            · rwa [hc]
        · rw [if_neg hmem]
          simp [List.mem_append]
      rw [hga]
      constructor
      · rintro ((hc | hc) | ⟨r, hr, hrp, hrc⟩)
        · exact Or.inl hc
        · exact Or.inr ⟨x, List.mem_cons_self _ _, hx, hc.symm⟩
        · exact Or.inr ⟨r, List.mem_cons_of_mem _ hr, hrp, hrc⟩
      · rintro (hc | ⟨r, hr, hrp, hrc⟩)
        · exact Or.inl (Or.inl hc)
        · rcases List.mem_cons.mp hr with hrx | hrrest
          · exact Or.inl (Or.inr (by rw [← hrc, hrx]))
          · exact Or.inr ⟨r, hrrest, hrp, hrc⟩
    · rw [if_neg hx, ih]
      constructor
      · rintro (hc | ⟨r, hr, hrp, hrc⟩)
        · exact Or.inl hc
        · exact Or.inr ⟨r, List.mem_cons_of_mem _ hr, hrp, hrc⟩
      · rintro (hc | ⟨r, hr, hrp, hrc⟩)
        · exact Or.inl hc
        · rcases List.mem_cons.mp hr with hrx | hrrest
          · exact absurd (by rw [hrx] at hrp; exact hrp) hx
          · exact Or.inr ⟨r, hrrest, hrp, hrc⟩

/-- C6: for any total and transitive comparison lc modelling localeCompare,
the returned sortedCats is exactly the set of display categories of the
surviving records — duplicate-free and sorted ascending in code-point
order — and every per-category record list is sorted ascending by name
under lc. -/
theorem c6_ordering (lc : String → String → Bool)
    (htrans : ∀ a b c, lc a b = true → lc b c = true → lc a c = true)
    (htotal : ∀ a b, lc a b = true ∨ lc b a = true)
    (cart : List CartItem) (master : List (List Ingredient)) :
    (getCartIngredientsSummaryWith lc cart master).sortedCats.Pairwise
        (fun a b => strLe a b = true) ∧
    (getCartIngredientsSummaryWith lc cart master).sortedCats.Nodup ∧
    (∀ c, c ∈ (getCartIngredientsSummaryWith lc cart master).sortedCats ↔
      ∃ r ∈ survivors cart master, displayCat r = c) ∧
    (∀ p ∈ (getCartIngredientsSummaryWith lc cart master).grouped,
      p.2.Pairwise (fun a b => lc a.name b.name = true)) := by
  haveI instTotS : IsTotal String (fun a b => strLe a b = true) := ⟨strLe_total⟩
  haveI instTransS : IsTrans String (fun a b => strLe a b = true) :=
    ⟨fun a b c => strLe_trans a b c⟩
  haveI instTotR : IsTotal AggRec (fun a b => lc a.name b.name = true) :=
    ⟨fun a b => htotal a.name b.name⟩
  haveI instTransR : IsTrans AggRec (fun a b => lc a.name b.name = true) :=
    ⟨fun a b c => htrans a.name b.name c.name⟩
  have hcats : (getCartIngredientsSummaryWith lc cart master).sortedCats =
      sortKeys ((buildGrouped (finalMap cart master)).map Prod.fst) := rfl
  refine ⟨?_, ?_, ?_, ?_⟩
  · rw [hcats]
    exact List.sorted_insertionSort _ _
  · rw [hcats]
    exact ((List.perm_insertionSort _ _).nodup_iff).mpr
      (buildGrouped_keys_nodup (finalMap cart master))
  · intro c
    rw [hcats]
    unfold sortKeys
    rw [(List.perm_insertionSort _ _).mem_iff]
    unfold buildGrouped
    rw [buildGrouped_keys_mem]
    unfold survivors
    simp only [List.map_nil, List.not_mem_nil, false_or]
    constructor
    · rintro ⟨r, hr, hrp, hrc⟩
      exact ⟨r, List.mem_filter.mpr ⟨hr, by simpa using hrp⟩, hrc⟩
    · rintro ⟨r, hr, hrc⟩
      have := List.mem_filter.mp hr
      exact ⟨r, this.1, by simpa using this.2, hrc⟩
  · intro p hp
    have hp2 : p ∈ (buildGrouped (finalMap cart master)).map
        (fun q => (q.1, sortRecs lc q.2)) := hp
    rcases List.mem_map.mp hp2 with ⟨q, hq, he⟩
    have : p.2 = sortRecs lc q.2 := by rw [← he]
    rw [this]
    exact List.sorted_insertionSort _ _

/-- Witness for C6: code-point order is total and transitive, applied on
the spec's worked example. -/
theorem c6_ordering_witness :
    (getCartIngredientsSummaryWith strLe exCart exCatalog).sortedCats.Pairwise
        (fun a b => strLe a b = true) ∧
    (getCartIngredientsSummaryWith strLe exCart exCatalog).sortedCats.Nodup ∧
    (∀ c, c ∈ (getCartIngredientsSummaryWith strLe exCart exCatalog).sortedCats ↔
      ∃ r ∈ survivors exCart exCatalog, displayCat r = c) ∧
    (∀ p ∈ (getCartIngredientsSummaryWith strLe exCart exCatalog).grouped,
      p.2.Pairwise (fun a b => strLe a.name b.name = true)) :=
  c6_ordering strLe strLe_trans strLe_total exCart exCatalog

end SushiWeb
